import Mathlib

/-!
Verification of a Brainfuck interpreter (Rust, `src/lib.rs`) against its
natural-language specification.

The development shallowly embeds the two modules of the source:

* `bf_tape::Tape<T>` becomes the structure `Tape T` below: the `Vec<T>`
  backing store is a `List T`, the `usize` pointer a `Nat`.  The signed
  `i32` seek offsets are modelled on `Int` (all positions arising in the
  claims are tiny compared to 2^31, so the casts in the source are exact).
* `brainfuck::run_program` and its helpers `left_bracket` / `right_bracket`
  become a one-instruction `step` function iterated by a fuel-indexed `run`.
  Byte cells (`u8` with wrapping arithmetic) are `Nat` with explicit
  `% 256`.  Process stdin is a `List Nat` of available bytes carried in the
  engine state (EOF yields 0, as in `get_byte_from_stdin`); stdout is an
  accumulating `List Nat`.  A Rust panic on an unreachable `unwrap`/`expect`
  is modelled as an error result and proved unreachable where a claim
  needs it.
-/

/-- Counterpart of the Rust `Default` bound on tape elements: the value
`T::default()` used to fill freshly allocated cells.  (Lean `Inhabited`
is not used because `default : Char` is `'A'` while `char::default()`
is the NUL character, which the engine relies on as its sentinel.) -/
class TapeDefault (T : Type) where
  dflt : T

instance : TapeDefault Nat := ⟨0⟩

instance : TapeDefault Char := ⟨Char.ofNat 0⟩

/-- The end-of-tape sentinel: `char::default()`, i.e. NUL. -/
def sentinel : Char := Char.ofNat 0

/-- `bf_tape::Tape<T>`: a growable backing store and a head position. -/
structure Tape (T : Type) where
  data : List T
  ptr : Nat
deriving Repr, DecidableEq

/-- `Vec::resize(new_len, v)`: truncate when shrinking, pad with `v`
when growing. -/
def listResize {T : Type} (l : List T) (new_len : Nat) (v : T) : List T :=
  if new_len ≤ l.length then l.take new_len
  else l ++ List.replicate (new_len - l.length) v

namespace Tape

variable {T : Type} [TapeDefault T]

/-- `Tape::allocate_for_ptr`: ensure `data` covers `ptr_pos`, resizing to
`ptr_pos + 1000` when it does not (batch growth). -/
def allocate_for_ptr (t : Tape T) (ptr_pos : Nat) : Tape T :=
  if t.data.length < ptr_pos + 1 then
    { t with data := listResize t.data (ptr_pos + 1000) TapeDefault.dflt }
  else t

/-- `Tape::get`: the element under the head.  The source indexes the
vector directly (`self.data[self.ptr]`); by the allocation invariant the
index is always in bounds, and out of bounds this total model returns the
default value. -/
def get (t : Tape T) : T :=
  t.data.getD t.ptr TapeDefault.dflt

/-- `Tape::new`: empty store pre-allocated for position 0, head at 0. -/
def new : Tape T :=
  allocate_for_ptr { data := [], ptr := 0 } 0

/-- `Tape::pos`. -/
def pos (t : Tape T) : Nat := t.ptr

/-- `Tape::seek(offset)`: signed move of the head; fails when the target
position is negative, otherwise allocates for the target and moves. -/
def seek (t : Tape T) (offset : Int) : Except String (Tape T) :=
  let new_ptr_pos : Int := (t.ptr : Int) + offset
  if new_ptr_pos < 0 then
    Except.error "Attempted to move tape head below 0."
  else
    Except.ok { (t.allocate_for_ptr new_ptr_pos.toNat) with ptr := new_ptr_pos.toNat }

/-- `Tape::next`: read the current element, then seek by +1.  The source
unwraps the seek with `expect`; the error arm below is unreachable since a
+1 seek never lands below zero (theorem `C9_next_never_fails`). -/
def next (t : Tape T) : T × Tape T :=
  match t.seek 1 with
  | Except.ok t' => (t.get, t')
  | Except.error _ => (t.get, t)

/-- `Tape::set`: overwrite the element under the head (in bounds by the
allocation invariant; `List.set` is the identity out of bounds). -/
def set (t : Tape T) (elem : T) : Tape T :=
  { t with data := t.data.set t.ptr elem }

/-- `Tape::zero`: rewind the head to 0. -/
def zero (t : Tape T) : Tape T :=
  { t with ptr := 0 }

end Tape

/-- The loop body of `Tape::from_iter`: write each element, advancing the
head by one each time (that seek is always `Ok`, unwrapped in the source). -/
def writeAll {T : Type} [TapeDefault T] : List T → Tape T → Tape T
  | [], t => t
  | x :: xs, t =>
    writeAll xs (match (t.set x).seek 1 with
      | Except.ok t' => t'
      | Except.error _ => t.set x)

/-- `impl FromIterator for Tape`: bulk construction — write all elements
from a fresh tape, then rewind. -/
def Tape.fromList {T : Type} [TapeDefault T] (l : List T) : Tape T :=
  (writeAll l Tape.new).zero

/-- Reading a tape at an absolute position (unallocated positions read as
the default value, per the tape data model). -/
def cellAt {T : Type} [TapeDefault T] (t : Tape T) (i : Nat) : T :=
  t.data.getD i TapeDefault.dflt

namespace Tape

variable {T : Type} [TapeDefault T]

theorem allocate_for_ptr_data (t : Tape T) (p : Nat) :
    ∃ k, (t.allocate_for_ptr p).data = t.data ++ List.replicate k TapeDefault.dflt := by
  unfold allocate_for_ptr
  split
  · refine ⟨p + 1000 - t.data.length, ?_⟩
    simp only [listResize]
    rw [if_neg (by omega)]
  · exact ⟨0, by simp⟩

theorem allocate_for_ptr_length (t : Tape T) (p : Nat) :
    p < (t.allocate_for_ptr p).data.length := by
  unfold allocate_for_ptr
  split
  · simp only [listResize]
    rw [if_neg (by omega)]
    simp
    omega
  · omega

theorem allocate_for_ptr_ptr (t : Tape T) (p : Nat) :
    (t.allocate_for_ptr p).ptr = t.ptr := by
  unfold allocate_for_ptr
  split <;> rfl

/-- A successful seek: explicit description of the result. -/
theorem seek_ok (t : Tape T) (off : Int) (h : 0 ≤ (t.ptr : Int) + off) :
    t.seek off =
      Except.ok { (t.allocate_for_ptr ((t.ptr : Int) + off).toNat) with
                    ptr := ((t.ptr : Int) + off).toNat } := by
  unfold seek
  rw [if_neg (by omega)]

theorem seek_err (t : Tape T) (off : Int) (h : (t.ptr : Int) + off < 0) :
    t.seek off = Except.error "Attempted to move tape head below 0." := by
  unfold seek
  rw [if_pos (by omega)]

theorem seek_one (t : Tape T) :
    t.seek 1 = Except.ok { (t.allocate_for_ptr (t.ptr + 1)) with ptr := t.ptr + 1 } := by
  have h := seek_ok t 1 (by omega)
  rw [h]
  have : ((t.ptr : Int) + 1).toNat = t.ptr + 1 := by omega
  rw [this]

theorem next_fst (t : Tape T) : (t.next).1 = t.get := by
  unfold next
  rw [seek_one t]

theorem next_snd (t : Tape T) :
    (t.next).2 = { (t.allocate_for_ptr (t.ptr + 1)) with ptr := t.ptr + 1 } := by
  unfold next
  rw [seek_one t]

theorem next_snd_ptr (t : Tape T) : (t.next).2.ptr = t.ptr + 1 := by
  rw [next_snd]

theorem next_snd_data (t : Tape T) :
    ∃ k, (t.next).2.data = t.data ++ List.replicate k TapeDefault.dflt := by
  rw [next_snd]
  exact allocate_for_ptr_data t (t.ptr + 1)

end Tape

/-! ### The `[` scan loop and its termination -/

/-- The number of non-sentinel symbols at or after the head.  Strictly
decreases on every `next` that reads a non-sentinel symbol: this is the
termination measure of the forward scan in `left_bracket`. -/
def liveCount (t : Tape Char) : Nat :=
  (t.data.drop t.ptr).countP (fun c => c != sentinel)

theorem countP_replicate_sentinel (k : Nat) :
    (List.replicate k sentinel).countP (fun c => c != sentinel) = 0 := by
  induction k with
  | zero => rfl
  | succ n ih => simp [List.replicate_succ, List.countP_cons, ih]

theorem get_ne_sentinel_lt (t : Tape Char) (h : t.get ≠ sentinel) :
    t.ptr < t.data.length := by
  by_contra hc
  apply h
  unfold Tape.get
  rw [List.getD_eq_getElem?_getD, List.getElem?_eq_none (by omega)]
  rfl

theorem liveCount_next_lt (t : Tape Char) (h : t.get ≠ sentinel) :
    liveCount (t.next).2 < liveCount t := by
  have hlt : t.ptr < t.data.length := get_ne_sentinel_lt t h
  obtain ⟨k, hk⟩ := Tape.next_snd_data t
  have hd : (TapeDefault.dflt : Char) = sentinel := rfl
  rw [hd] at hk
  unfold liveCount
  rw [hk, Tape.next_snd_ptr]
  rw [List.drop_append_eq_append_drop, List.countP_append]
  rw [List.drop_replicate]
  rw [countP_replicate_sentinel]
  have hdecomp : t.data.drop t.ptr = t.data[t.ptr] :: t.data.drop (t.ptr + 1) :=
    List.drop_eq_getElem_cons hlt
  have hget : t.data[t.ptr] = t.get := by
    unfold Tape.get
    rw [List.getD_eq_getElem?_getD, List.getElem?_eq_getElem hlt]
    rfl
  rw [hdecomp, List.countP_cons]
  have hb : (t.data[t.ptr] != sentinel) = true := by
    rw [hget]
    exact bne_iff_ne.mpr h
  rw [hb]
  simp

/-- The inner `loop` of `left_bracket`: scan forward from the current head,
pushing on `[`, popping on `]`, until the stack length returns to
`orig_stack_len`; error on the sentinel.  The `expect` on an empty pop in
the source (unreachable from `left_bracket`) is modelled as an error. -/
def scanLoop (program : Tape Char) (stack : List Nat) (orig_stack_len : Nat) :
    Except String (Tape Char × List Nat) :=
  if h1 : (program.next).1 = '[' then
    scanLoop (program.next).2 ((program.next).2.pos :: stack) orig_stack_len
  else if h2 : (program.next).1 = ']' then
    match stack with
    | [] => Except.error "Unexpected empty bracket stack."
    | _ :: rest =>
      if rest.length = orig_stack_len then Except.ok ((program.next).2, rest)
      else scanLoop (program.next).2 rest orig_stack_len
  else if h3 : (program.next).1 = sentinel then
    Except.error "Reached end of tape before finding matching ]"
  else scanLoop (program.next).2 stack orig_stack_len
termination_by liveCount program
decreasing_by
  · apply liveCount_next_lt
    rw [← Tape.next_fst]
    rw [h1]
    decide
  · apply liveCount_next_lt
    rw [← Tape.next_fst]
    rw [h2]
    decide
  · apply liveCount_next_lt
    rw [← Tape.next_fst]
    exact h3

/-- `brainfuck::left_bracket`: push the current position (the one just
after the `[` that the dispatch loop consumed); fall through when the
current memory cell is non-zero; otherwise scan forward for the matching
`]`. -/
def left_bracket (program : Tape Char) (memory : Tape Nat) (stack : List Nat) :
    Except String (Tape Char × List Nat) :=
  let orig_stack_len := stack.length
  let stack' := program.pos :: stack
  if memory.get ≠ 0 then Except.ok (program, stack')
  else scanLoop program stack' orig_stack_len

/-- `brainfuck::right_bracket`: error on an empty stack; pop and continue
when the cell is zero; jump back to the recorded position when non-zero.
The `expect` on the backward seek (unreachable: stack entries are
non-negative positions) is modelled as an error. -/
def right_bracket (program : Tape Char) (memory : Tape Nat) (stack : List Nat) :
    Except String (Tape Char × List Nat) :=
  match stack with
  | [] => Except.error "Encountered ] without matching ["
  | top :: rest =>
    if memory.get = 0 then Except.ok (program, rest)
    else
      match program.seek ((top : Int) - (program.pos : Int)) with
      | Except.ok p' => Except.ok (p', top :: rest)
      | Except.error _ => Except.error "seek failure"

/-! ### Specification of bracket matching -/

/-- Depth-counting specification of the `[` forward scan, following the
spec text: scan symbol-by-symbol, one level deeper per `[`, one level up
per `]`, stopping just past the `]` that returns the depth to where it
started; `none` when the sentinel comes first (the end of the explicit
list also reads as the sentinel on the tape).  `some k` means the match
is found with the head `k` symbols further on, just past the matching
`]`. -/
def specMatchClose : List Char → Nat → Option Nat
  | [], _ => none
  | c :: rest, depth =>
    if c = '[' then (specMatchClose rest (depth + 1)).map (· + 1)
    else if c = ']' then
      if depth = 1 then some 1
      else (specMatchClose rest (depth - 1)).map (· + 1)
    else if c = sentinel then none
    else (specMatchClose rest depth).map (· + 1)

/-- Sentinel padding after the symbols does not change the match: the
scan stops at the first sentinel anyway. -/
theorem specMatchClose_pad (l : List Char) (k : Nat) :
    ∀ d, specMatchClose (l ++ List.replicate k sentinel) d = specMatchClose l d := by
  induction l with
  | nil =>
    intro d
    cases k with
    | zero => rfl
    | succ m =>
      simp only [List.nil_append, List.replicate_succ, specMatchClose]
      rw [if_neg (by decide), if_neg (by decide)]
      simp
  | cons c rest ih =>
    intro d
    simp only [List.cons_append, specMatchClose, List.append_eq, ih]

theorem drop_cons_facts (p : Tape Char) (c : Char) (rest : List Char)
    (hd : p.data.drop p.ptr = c :: rest) :
    p.get = c ∧ p.data.drop (p.ptr + 1) = rest ∧ p.ptr < p.data.length := by
  have hlen : p.ptr < p.data.length := by
    have hl := congrArg List.length hd
    rw [List.length_drop] at hl
    simp only [List.length_cons] at hl
    omega
  have hdecomp := List.drop_eq_getElem_cons (l := p.data) hlen
  rw [hd] at hdecomp
  injection hdecomp with h1 h2
  refine ⟨?_, h2.symm, hlen⟩
  unfold Tape.get
  rw [List.getD_eq_getElem?_getD, List.getElem?_eq_getElem hlen]
  exact h1.symm

theorem next_suffix (p : Tape Char) (c : Char) (rest : List Char)
    (hd : p.data.drop p.ptr = c :: rest) :
    ∃ m, (p.next).2.data.drop (p.next).2.ptr = rest ++ List.replicate m sentinel := by
  obtain ⟨_, hrest, _⟩ := drop_cons_facts p c rest hd
  obtain ⟨k, hk⟩ := Tape.next_snd_data p
  have hdfl : (TapeDefault.dflt : Char) = sentinel := rfl
  rw [hdfl] at hk
  rw [Tape.next_snd_ptr, hk, List.drop_append_eq_append_drop, hrest, List.drop_replicate]
  exact ⟨_, rfl⟩

theorem spec_next (p : Tape Char) (c : Char) (rest : List Char)
    (hd : p.data.drop p.ptr = c :: rest) (d : Nat) :
    specMatchClose ((p.next).2.data.drop (p.next).2.ptr) d = specMatchClose rest d := by
  obtain ⟨m, hm⟩ := next_suffix p c rest hd
  rw [hm]
  exact specMatchClose_pad rest m d

/-- The correctness property of the scan relative to `specMatchClose`:
either no match exists before the sentinel and the scan errors out, or
the match is `k` symbols on, the scan succeeds, restores the stack to
exactly the saved lower part, and leaves the head `k` symbols further. -/
def ScanSpecHolds (p : Tape Char) (pushed base : List Nat) : Prop :=
  (specMatchClose (p.data.drop p.ptr) pushed.length = none →
      scanLoop p (pushed ++ base) base.length =
        Except.error "Reached end of tape before finding matching ]") ∧
  (∀ k, specMatchClose (p.data.drop p.ptr) pushed.length = some k →
      ∃ p', scanLoop p (pushed ++ base) base.length = Except.ok (p', base) ∧
        p'.ptr = p.ptr + k)

theorem scan_chain (p : Tape Char) (pushed' pushed base : List Nat)
    (hih : ScanSpecHolds (p.next).2 pushed' base)
    (hstack : scanLoop p (pushed ++ base) base.length
            = scanLoop (p.next).2 (pushed' ++ base) base.length)
    (hspec : specMatchClose (p.data.drop p.ptr) pushed.length
           = (specMatchClose ((p.next).2.data.drop (p.next).2.ptr) pushed'.length).map (· + 1)) :
    ScanSpecHolds p pushed base := by
  constructor
  · intro hnone
    rw [hspec, Option.map_eq_none'] at hnone
    rw [hstack]
    exact hih.1 hnone
  · intro k hk
    rw [hspec, Option.map_eq_some'] at hk
    obtain ⟨a, ha, hak⟩ := hk
    obtain ⟨p', hp', hptr⟩ := hih.2 a ha
    refine ⟨p', by rw [hstack]; exact hp', ?_⟩
    rw [hptr, Tape.next_snd_ptr]
    omega

/-- The imperative forward scan of `left_bracket` agrees with the
depth-counting specification `specMatchClose`, restores the saved lower
part of the stack on success, and fails exactly when no match exists
before the sentinel. -/
theorem scanLoop_spec (n : Nat) :
    ∀ (p : Tape Char) (pushed base : List Nat), liveCount p ≤ n → 0 < pushed.length →
      ScanSpecHolds p pushed base := by
  induction n using Nat.strong_induction_on with
  | _ n ih =>
    intro p pushed base hn hpush
    rcases hdrop : p.data.drop p.ptr with _ | ⟨c, rest⟩
    · -- the head reads the sentinel immediately
      have hget : p.get = sentinel := by
        unfold Tape.get
        rw [List.getD_eq_getElem?_getD]
        have hlen : p.data.length ≤ p.ptr := by
          have hl := congrArg List.length hdrop
          rw [List.length_drop] at hl
          simp only [List.length_nil] at hl
          omega
        rw [List.getElem?_eq_none hlen]
        rfl
      have hn1 : (p.next).1 = sentinel := by rw [Tape.next_fst, hget]
      constructor
      · intro _
        rw [scanLoop.eq_def, hn1]
        rw [dif_neg (by decide), dif_neg (by decide), dif_pos rfl]
      · intro k hk
        rw [hdrop] at hk
        simp only [specMatchClose] at hk
        exact Option.noConfusion hk
    · obtain ⟨hget, hrest, hlen⟩ := drop_cons_facts p c rest hdrop
      have hn1 : (p.next).1 = c := by rw [Tape.next_fst, hget]
      have hptr' := Tape.next_snd_ptr p
      by_cases hc1 : c = '['
      · -- a nested open bracket: push and continue one level deeper
        subst hc1
        have hlt : liveCount (p.next).2 < n :=
          lt_of_lt_of_le (liveCount_next_lt p (by rw [hget]; decide)) hn
        have hih := ih (liveCount (p.next).2) hlt (p.next).2
          ((p.next).2.pos :: pushed) base le_rfl (by simp)
        apply scan_chain p ((p.next).2.pos :: pushed) pushed base hih
        · rw [scanLoop.eq_def, hn1, dif_pos rfl, List.cons_append]
        · rw [hdrop, spec_next p '[' rest hdrop]
          simp only [specMatchClose, List.length_cons]
          simp
      · by_cases hc2 : c = ']'
        · subst hc2
          cases pushed with
          | nil => simp at hpush
          | cons q qs =>
            have hunf : scanLoop p ((q :: qs) ++ base) base.length =
                (if (qs ++ base).length = base.length
                 then Except.ok ((p.next).2, qs ++ base)
                 else scanLoop (p.next).2 (qs ++ base) base.length) := by
              rw [scanLoop.eq_def, hn1]
              rw [dif_neg (by decide), dif_pos rfl]
              simp only [List.cons_append]
            cases qs with
            | nil =>
              -- depth one: this close bracket is the match
              have hspec1 : specMatchClose (']' :: rest) 1 = some 1 := by
                simp only [specMatchClose]
                simp
              constructor
              · intro hnone
                rw [hdrop] at hnone
                simp only [List.length_cons, List.length_nil] at hnone
                rw [hspec1] at hnone
                exact Option.noConfusion hnone
              · intro k hk
                rw [hdrop] at hk
                simp only [List.length_cons, List.length_nil] at hk
                rw [hspec1] at hk
                have hk1 := (Option.some.injEq 1 k).mp hk
                refine ⟨(p.next).2, ?_, by omega⟩
                rw [hunf, if_pos (by simp)]
                simp
            | cons q2 qs2 =>
              -- still inside nested brackets: pop and continue one level up
              have hlt : liveCount (p.next).2 < n :=
                lt_of_lt_of_le (liveCount_next_lt p (by rw [hget]; decide)) hn
              have hih := ih (liveCount (p.next).2) hlt (p.next).2
                (q2 :: qs2) base le_rfl (by simp)
              apply scan_chain p (q2 :: qs2) (q :: q2 :: qs2) base hih
              · rw [hunf, if_neg (by simp only [List.length_cons, List.length_append]; omega)]
              · rw [hdrop, spec_next p ']' rest hdrop]
                simp only [specMatchClose, List.length_cons, if_true]
                have harith : qs2.length + 1 + 1 - 1 = qs2.length + 1 := by omega
                rw [harith, if_neg (show ¬ (qs2.length + 1 + 1 = 1) by omega)]
                rw [if_neg (by decide)]
        · by_cases hc3 : c = sentinel
          · subst hc3
            constructor
            · intro _
              rw [scanLoop.eq_def, hn1]
              rw [dif_neg (by decide), dif_neg (by decide), dif_pos rfl]
            · intro k hk
              rw [hdrop] at hk
              simp only [specMatchClose] at hk
              rw [if_neg hc1, if_neg hc2] at hk
              exact Option.noConfusion hk
          · -- any other symbol: skip it
            have hlt : liveCount (p.next).2 < n :=
              lt_of_lt_of_le (liveCount_next_lt p (by rw [hget]; exact hc3)) hn
            have hih := ih (liveCount (p.next).2) hlt (p.next).2 pushed base le_rfl hpush
            apply scan_chain p pushed pushed base hih
            · rw [scanLoop.eq_def, hn1]
              rw [dif_neg hc1, dif_neg hc2, dif_neg hc3]
            · rw [hdrop, spec_next p c rest hdrop]
              simp only [specMatchClose]
              rw [if_neg hc1, if_neg hc2, if_neg hc3]

/-! ### The execution engine (`brainfuck::run_program`) -/

/-- The state carried across the dispatch loop of `run_program`, together
with the modelled process I/O: `input` is the sequence of bytes still
available on stdin (`get_byte_from_stdin` yields 0 once it is exhausted),
`output` accumulates the bytes written by `.`. -/
structure EngineState where
  program : Tape Char
  memory : Tape Nat
  stack : List Nat
  input : List Nat
  output : List Nat
deriving Repr, DecidableEq

/-- Result of one dispatch iteration: continue looping, return `Ok(())`
at the end-of-tape sentinel, or abort (an `Err` return or a panicking
`unwrap` in the source). -/
inductive StepResult where
  | cont (s : EngineState)
  | halt (s : EngineState)
  | fail (msg : String)
deriving Repr, DecidableEq

/-- One iteration of the dispatch loop of `run_program`: take the next
symbol from the program tape (advancing its head) and act on it. -/
def step (s : EngineState) : StepResult :=
  let c := (s.program.next).1
  let p1 := (s.program.next).2
  if c = '>' then
    match s.memory.seek 1 with
    | Except.ok m' => StepResult.cont { s with program := p1, memory := m' }
    | Except.error e => StepResult.fail e
  else if c = '<' then
    match s.memory.seek (-1) with
    | Except.ok m' => StepResult.cont { s with program := p1, memory := m' }
    | Except.error e => StepResult.fail e
  else if c = '+' then
    StepResult.cont { s with program := p1, memory := s.memory.set ((s.memory.get + 1) % 256) }
  else if c = '-' then
    StepResult.cont { s with program := p1, memory := s.memory.set ((s.memory.get + 255) % 256) }
  else if c = '.' then
    StepResult.cont { s with program := p1, output := s.output ++ [s.memory.get] }
  else if c = ',' then
    match s.input with
    | [] => StepResult.cont { s with program := p1, memory := s.memory.set 0 }
    | b :: bs => StepResult.cont { s with program := p1, memory := s.memory.set b, input := bs }
  else if c = '[' then
    match left_bracket p1 s.memory s.stack with
    | Except.ok (p2, st') => StepResult.cont { s with program := p2, stack := st' }
    | Except.error e => StepResult.fail e
  else if c = ']' then
    match right_bracket p1 s.memory s.stack with
    | Except.ok (p2, st') => StepResult.cont { s with program := p2, stack := st' }
    | Except.error e => StepResult.fail e
  else if c = sentinel then
    StepResult.halt { s with program := p1 }
  else
    StepResult.fail "Invalid program symbol."

/-- The dispatch loop, iterated with explicit fuel (the interpreted
language may diverge, so no total recursion exists): `none` means the
fuel ran out before the program finished. -/
def run : Nat → EngineState → Option (Except String EngineState)
  | 0, _ => none
  | fuel + 1, s =>
    match step s with
    | StepResult.cont s' => run fuel s'
    | StepResult.halt s' => some (Except.ok s')
    | StepResult.fail e => some (Except.error e)

/-- The state at entry of `run_program`: the loaded program tape, a fresh
all-zero memory tape, an empty bracket stack, the given stdin bytes, and
no output yet. -/
def initState (prog : List Char) (input : List Nat) : EngineState :=
  { program := Tape.fromList prog
    memory := Tape.new
    stack := []
    input := input
    output := [] }

/-! ### Tape invariant and bulk-construction lemmas -/

/-- The tape invariant from the spec data model: the head always
addresses an allocated cell. -/
def TapeInv {T : Type} (t : Tape T) : Prop :=
  t.ptr < t.data.length

theorem getD_append_replicate {T : Type} (l : List T) (k i : Nat) (d : T) :
    (l ++ List.replicate k d).getD i d = l.getD i d := by
  rw [List.getD_eq_getElem?_getD, List.getD_eq_getElem?_getD]
  by_cases h : i < l.length
  · rw [List.getElem?_append_left h]
  · rw [List.getElem?_append_right (show l.length ≤ i by omega)]
    rw [List.getElem?_replicate]
    rw [List.getElem?_eq_none (show l.length ≤ i by omega)]
    split <;> rfl

theorem getD_set_self {T : Type} (l : List T) (p i : Nat) (x d : T)
    (hp : p < l.length) (hi : i = p) : (l.set p x).getD i d = x := by
  subst hi
  rw [List.getD_eq_getElem?_getD, List.getElem?_set, if_pos rfl, if_pos hp]
  rfl

theorem getD_set_ne {T : Type} (l : List T) (p i : Nat) (x d : T)
    (hi : i ≠ p) : (l.set p x).getD i d = l.getD i d := by
  rw [List.getD_eq_getElem?_getD, List.getD_eq_getElem?_getD,
    List.getElem?_set_ne (fun h => hi h.symm)]

namespace Tape

variable {T : Type} [TapeDefault T]

theorem new_inv : TapeInv (new : Tape T) := by
  unfold new TapeInv
  rw [allocate_for_ptr_ptr]
  exact allocate_for_ptr_length _ 0

theorem new_cellAt (i : Nat) : cellAt (new : Tape T) i = TapeDefault.dflt := by
  unfold new cellAt
  obtain ⟨k, hk⟩ := allocate_for_ptr_data ({ data := [], ptr := 0 } : Tape T) 0
  rw [hk]
  simp only [List.nil_append]
  rw [List.getD_eq_getElem?_getD]
  by_cases h : i < k
  · rw [List.getElem?_replicate, if_pos h]
    rfl
  · rw [List.getElem?_replicate, if_neg h]
    rfl

theorem new_ptr : (new : Tape T).ptr = 0 := by
  unfold new
  rw [allocate_for_ptr_ptr]

theorem set_inv (t : Tape T) (v : T) (h : TapeInv t) : TapeInv (t.set v) := by
  unfold TapeInv at h ⊢
  unfold Tape.set
  simpa using h

theorem seek_ok_inv (t : Tape T) (off : Int) (t' : Tape T)
    (h : t.seek off = Except.ok t') : TapeInv t' := by
  by_cases h0 : 0 ≤ (t.ptr : Int) + off
  · rw [seek_ok t off h0] at h
    injection h with h
    subst h
    exact allocate_for_ptr_length t _
  · rw [seek_err t off (by omega)] at h
    exact Except.noConfusion h

theorem next_inv (t : Tape T) : TapeInv (t.next).2 := by
  rw [next_snd]
  unfold TapeInv
  exact allocate_for_ptr_length _ _

theorem zero_inv (t : Tape T) (h : 0 < t.data.length) : TapeInv t.zero := h

theorem data_length_pos (t : Tape T) (h : TapeInv t) : 0 < t.data.length := by
  unfold TapeInv at h
  omega

/-- The element written by one `set` + seek-by-one iteration of
`from_iter`, and what it leaves untouched. -/
theorem write_step (t : Tape T) (x : T) (h : TapeInv t) :
    ∃ t₁, (match (t.set x).seek 1 with
            | Except.ok t' => t'
            | Except.error _ => t.set x) = t₁ ∧
      t₁.ptr = t.ptr + 1 ∧ TapeInv t₁ ∧
      (∀ i, cellAt t₁ i = if i = t.ptr then x else cellAt t i) := by
  refine ⟨_, by rw [seek_one (t.set x)], ?_, ?_, ?_⟩
  · rfl
  · unfold TapeInv
    exact allocate_for_ptr_length _ _
  · intro i
    unfold cellAt
    obtain ⟨k, hk⟩ := allocate_for_ptr_data (t.set x) ((t.set x).ptr + 1)
    simp only [hk]
    rw [getD_append_replicate]
    simp only [Tape.set]
    by_cases hi : i = t.ptr
    · rw [if_pos hi]
      exact getD_set_self t.data t.ptr i x TapeDefault.dflt h hi
    · rw [if_neg hi]
      exact getD_set_ne t.data t.ptr i x TapeDefault.dflt hi

end Tape

/-- Full characterization of the write loop of bulk construction: it
advances the head past the written block, keeps the invariant, and the
final contents are the written elements over the block and the old
contents elsewhere. -/
theorem writeAll_spec {T : Type} [TapeDefault T] (l : List T) :
    ∀ t : Tape T, TapeInv t →
      (writeAll l t).ptr = t.ptr + l.length ∧ TapeInv (writeAll l t) ∧
      (∀ i, cellAt (writeAll l t) i =
        if t.ptr ≤ i ∧ i < t.ptr + l.length then l.getD (i - t.ptr) TapeDefault.dflt
        else cellAt t i) := by
  induction l with
  | nil =>
    intro t h
    refine ⟨rfl, h, ?_⟩
    intro i
    simp only [List.length_nil]
    rw [if_neg (by omega)]
    rfl
  | cons x xs ih =>
    intro t h
    obtain ⟨t₁, heq, hptr, hinv, hcell⟩ := Tape.write_step t x h
    have hw : writeAll (x :: xs) t = writeAll xs t₁ := by
      rw [writeAll, heq]
    obtain ⟨ihptr, ihinv, ihcell⟩ := ih t₁ hinv
    refine ⟨?_, hw ▸ ihinv, ?_⟩
    · rw [hw, ihptr, hptr]
      simp only [List.length_cons]
      omega
    · intro i
      rw [hw, ihcell i, hptr, hcell i]
      simp only [List.length_cons]
      by_cases h1 : t.ptr + 1 ≤ i ∧ i < t.ptr + 1 + xs.length
      · rw [if_pos h1, if_pos (by omega)]
        have hne : ¬ (i = t.ptr) := by omega
        have : i - t.ptr = (i - (t.ptr + 1)) + 1 := by omega
        rw [this]
        rfl
      · rw [if_neg h1]
        by_cases h2 : i = t.ptr
        · rw [if_pos h2, if_pos (by omega), h2]
          simp
        · rw [if_neg h2, if_neg (by omega)]

theorem fromList_ptr {T : Type} [TapeDefault T] (l : List T) : (Tape.fromList l).ptr = 0 := rfl

theorem fromList_inv {T : Type} [TapeDefault T] (l : List T) : TapeInv (Tape.fromList l) := by
  obtain ⟨_, hinv, _⟩ := writeAll_spec l Tape.new Tape.new_inv
  exact Tape.zero_inv _ (Tape.data_length_pos _ hinv)

theorem fromList_cellAt {T : Type} [TapeDefault T] (l : List T) (i : Nat) :
    cellAt (Tape.fromList l) i = l.getD i TapeDefault.dflt := by
  obtain ⟨hptr, hinv, hcell⟩ := writeAll_spec l Tape.new Tape.new_inv
  have hz : cellAt (Tape.fromList l) i = cellAt (writeAll l Tape.new) i := rfl
  rw [hz, hcell i, Tape.new_ptr]
  by_cases h : 0 ≤ i ∧ i < 0 + l.length
  · rw [if_pos h]
    simp
  · rw [if_neg h, Tape.new_cellAt]
    rw [List.getD_eq_getElem?_getD, List.getElem?_eq_none (by omega)]
    rfl

/-! ### Program loader (`brainfuck::load_program`) -/

/-- The instruction alphabet, as the string literal in the source. -/
def bfAlphabet : List Char := "<>+-.,[]".toList

/-- Membership test used by the second `retain` in `load_program`. -/
def isBF (c : Char) : Bool := bfAlphabet.contains c

/-- The pure processing of `load_program` after the file has been read:
`retain(!is_whitespace)` followed by `retain(alphabet contains)`. -/
def filterProgram (input : List Char) : List Char :=
  (input.filter (fun c => !c.isWhitespace)).filter isBF

/-- `brainfuck::load_program` (its file I/O is external; the text read is
the argument): filter, then bulk-construct the symbol tape. -/
def load_program (input : List Char) : Tape Char :=
  Tape.fromList (filterProgram input)

theorem isBF_not_whitespace (c : Char) (h : isBF c = true) : c.isWhitespace = false := by
  have halpha : bfAlphabet = ['<', '>', '+', '-', '.', ',', '[', ']'] := rfl
  rw [isBF, halpha] at h
  have hmem : c ∈ ['<', '>', '+', '-', '.', ',', '[', ']'] := by simpa using h
  fin_cases hmem <;> rfl

/-- The two `retain` passes amount to keeping exactly the alphabet
characters: the alphabet contains no whitespace. -/
theorem filterProgram_eq (input : List Char) :
    filterProgram input = input.filter isBF := by
  unfold filterProgram
  rw [List.filter_filter]
  apply List.filter_congr
  intro c _
  cases hb : isBF c
  · simp
  · simp [isBF_not_whitespace c hb]

/-! ### Operation histories (for the tape read-after-write property) -/

/-- One client-visible tape operation: a relative seek or a write at the
current head. -/
inductive TapeOp (T : Type) where
  | seekOp (off : Int)
  | setOp (v : T)

/-- Apply a history of operations to a tape.  A failed seek leaves the
tape unchanged; the read-after-write property below only constrains
histories whose seeks all stay non-negative, where that arm is never
taken. -/
def applyOps {T : Type} [TapeDefault T] : List (TapeOp T) → Tape T → Tape T
  | [], t => t
  | TapeOp.seekOp off :: ops, t =>
    applyOps ops (match t.seek off with
      | Except.ok t' => t'
      | Except.error _ => t)
  | TapeOp.setOp v :: ops, t => applyOps ops (t.set v)

/-- Validity of a history started at head position `pos`: every seek
lands at a non-negative position. -/
def opsValid {T : Type} : List (TapeOp T) → Int → Bool
  | [], _ => true
  | TapeOp.seekOp off :: ops, pos => decide (0 ≤ pos + off) && opsValid ops (pos + off)
  | TapeOp.setOp _ :: ops, pos => opsValid ops pos

/-- The abstract history semantics the spec describes: an integer head
and the map recording the most recent write per position. -/
def specRun {T : Type} : List (TapeOp T) → Int × (Int → Option T) → Int × (Int → Option T)
  | [], st => st
  | TapeOp.seekOp off :: ops, (pos, f) => specRun ops (pos + off, f)
  | TapeOp.setOp v :: ops, (pos, f) =>
    specRun ops (pos, fun i => if i = pos then some v else f i)

/-- The simulation relation between a concrete tape and the abstract
history state: same head position, invariant, and cell-wise agreement
(an unwritten position reads as the default value). -/
def Abstracts {T : Type} [TapeDefault T] (t : Tape T) (st : Int × (Int → Option T)) : Prop :=
  (t.ptr : Int) = st.1 ∧ TapeInv t ∧
    ∀ i : Nat, cellAt t i = (st.2 (i : Int)).getD TapeDefault.dflt

theorem applyOps_abstracts {T : Type} [TapeDefault T] (ops : List (TapeOp T)) :
    ∀ (t : Tape T) (st : Int × (Int → Option T)), Abstracts t st →
      opsValid ops st.1 = true → Abstracts (applyOps ops t) (specRun ops st) := by
  induction ops with
  | nil =>
    intro t st h _
    exact h
  | cons op rest ih =>
    intro t st h hv
    rcases st with ⟨sp, f⟩
    obtain ⟨hp, hinv, hf⟩ := h
    have hp' : (t.ptr : Int) = sp := hp
    cases op with
    | seekOp off =>
      simp only [opsValid, Bool.and_eq_true, decide_eq_true_eq] at hv
      obtain ⟨hnn, hv'⟩ := hv
      have hnn' : 0 ≤ sp + off := hnn
      have hv'' : opsValid rest (sp + off) = true := hv'
      have hok := Tape.seek_ok t off (by omega)
      have happ : applyOps (TapeOp.seekOp off :: rest) t =
          applyOps rest { (t.allocate_for_ptr ((t.ptr : Int) + off).toNat) with
                            ptr := ((t.ptr : Int) + off).toNat } := by
        rw [applyOps, hok]
      rw [happ, specRun]
      apply ih
      · refine ⟨?_, Tape.seek_ok_inv t off _ hok, ?_⟩
        · show ((((t.ptr : Int) + off).toNat : Nat) : Int) = sp + off
          omega
        · intro i
          unfold cellAt
          obtain ⟨k, hk⟩ := Tape.allocate_for_ptr_data t (((t.ptr : Int) + off).toNat)
          simp only [hk]
          rw [getD_append_replicate]
          exact hf i
      · exact hv''
    | setOp v =>
      have hv' : opsValid rest sp = true := hv
      rw [applyOps, specRun]
      apply ih
      · refine ⟨hp', Tape.set_inv t v hinv, ?_⟩
        intro i
        by_cases hi : i = t.ptr
        · unfold cellAt
          rw [Tape.set]
          simp only []
          rw [getD_set_self t.data t.ptr i v TapeDefault.dflt hinv hi]
          rw [if_pos (show (i : Int) = sp by omega)]
          rfl
        · unfold cellAt
          rw [Tape.set]
          simp only []
          rw [getD_set_ne t.data t.ptr i v TapeDefault.dflt hi]
          rw [if_neg (show ¬ ((i : Int) = sp) by omega)]
          exact hf i
      · exact hv'

/-! ### Dispatch lemmas -/

theorem left_bracket_nonzero (p : Tape Char) (m : Tape Nat) (st : List Nat)
    (h : m.get ≠ 0) : left_bracket p m st = Except.ok (p, p.pos :: st) := by
  unfold left_bracket
  rw [if_pos h]

theorem left_bracket_zero (p : Tape Char) (m : Tape Nat) (st : List Nat)
    (h : m.get = 0) : left_bracket p m st = scanLoop p (p.pos :: st) st.length := by
  unfold left_bracket
  rw [if_neg (by simp [h])]

theorem right_bracket_empty (p : Tape Char) (m : Tape Nat) :
    right_bracket p m [] = Except.error "Encountered ] without matching [" := rfl

theorem right_bracket_pop (p : Tape Char) (m : Tape Nat) (top : Nat) (rest : List Nat)
    (h : m.get = 0) : right_bracket p m (top :: rest) = Except.ok (p, rest) := by
  rw [right_bracket]
  rw [if_pos h]

theorem right_bracket_jump (p : Tape Char) (m : Tape Nat) (top : Nat) (rest : List Nat)
    (h : m.get ≠ 0) :
    ∃ p', right_bracket p m (top :: rest) = Except.ok (p', top :: rest) ∧ p'.ptr = top := by
  rw [right_bracket]
  rw [if_neg h]
  have hpos : p.pos = p.ptr := rfl
  rw [hpos]
  have hok := Tape.seek_ok p ((top : Int) - (p.ptr : Int)) (by omega)
  rw [hok]
  refine ⟨_, rfl, ?_⟩
  show (((p.ptr : Int) + ((top : Int) - (p.ptr : Int))).toNat) = top
  omega

theorem step_left_bracket (s : EngineState) (h : s.program.get = '[') :
    step s = (match left_bracket (s.program.next).2 s.memory s.stack with
      | Except.ok (p2, st') => StepResult.cont { s with program := p2, stack := st' }
      | Except.error e => StepResult.fail e) := by
  have hc : (s.program.next).1 = '[' := by rw [Tape.next_fst, h]
  simp only [step]
  rw [hc]
  rw [if_neg (by decide), if_neg (by decide), if_neg (by decide), if_neg (by decide),
    if_neg (by decide), if_neg (by decide), if_pos rfl]

theorem step_right_bracket (s : EngineState) (h : s.program.get = ']') :
    step s = (match right_bracket (s.program.next).2 s.memory s.stack with
      | Except.ok (p2, st') => StepResult.cont { s with program := p2, stack := st' }
      | Except.error e => StepResult.fail e) := by
  have hc : (s.program.next).1 = ']' := by rw [Tape.next_fst, h]
  simp only [step]
  rw [hc]
  rw [if_neg (by decide), if_neg (by decide), if_neg (by decide), if_neg (by decide),
    if_neg (by decide), if_neg (by decide), if_neg (by decide), if_pos rfl]

/-! ### Claim theorems -/

/-- Claim C5: for every tape state and signed offset, `seek` succeeds
exactly when the resulting position is non-negative, leaving the head
there; a negative result fails with the out-of-range error (the tape,
a pure value here, is not replaced on failure).  In particular every
target position `p ≥ 0` is reachable with `pos() == p`. -/
theorem C5_seek_behaviour {T : Type} [TapeDefault T] (t : Tape T) (off : Int) :
    (0 ≤ (t.ptr : Int) + off →
      ∃ t', t.seek off = Except.ok t' ∧ (t'.ptr : Int) = (t.ptr : Int) + off) ∧
    ((t.ptr : Int) + off < 0 →
      t.seek off = Except.error "Attempted to move tape head below 0.") ∧
    (∀ p : Nat, (t.ptr : Int) + off = (p : Int) →
      ∃ t', t.seek off = Except.ok t' ∧ t'.pos = p) := by
  refine ⟨?_, Tape.seek_err t off, ?_⟩
  · intro h
    refine ⟨_, Tape.seek_ok t off h, ?_⟩
    show ((((t.ptr : Int) + off).toNat : Nat) : Int) = (t.ptr : Int) + off
    omega
  · intro p hp
    refine ⟨_, Tape.seek_ok t off (by omega), ?_⟩
    show (((t.ptr : Int) + off).toNat) = p
    omega

theorem C5_witness :
    ∃ t', (Tape.new : Tape Nat).seek 3 = Except.ok t' ∧
      (t'.ptr : Int) = ((Tape.new : Tape Nat).ptr : Int) + 3 :=
  (C5_seek_behaviour (Tape.new : Tape Nat) 3).1 (by decide)

/-- Claim C6: the invariant `ptr < len(data)` holds after `new()` and is
preserved by every successful operation (`set`, a successful `seek`,
`next`, `zero`, bulk construction), so the direct vector indexing done by
`get`/`set` is always in bounds. -/
theorem C6_tape_invariant {T : Type} [TapeDefault T] :
    TapeInv (Tape.new : Tape T) ∧
    (∀ (t : Tape T) (v : T), TapeInv t → TapeInv (t.set v)) ∧
    (∀ (t t' : Tape T) (off : Int), t.seek off = Except.ok t' → TapeInv t') ∧
    (∀ t : Tape T, TapeInv (t.next).2) ∧
    (∀ t : Tape T, TapeInv t → TapeInv t.zero) ∧
    (∀ l : List T, TapeInv (Tape.fromList l)) ∧
    (∀ t : Tape T, TapeInv t → t.data[t.ptr]? = some t.get) := by
  refine ⟨Tape.new_inv, Tape.set_inv, ?_, Tape.next_inv, ?_, fromList_inv, ?_⟩
  · intro t t' off h
    exact Tape.seek_ok_inv t off t' h
  · intro t h
    exact Tape.zero_inv t (Tape.data_length_pos t h)
  · intro t h
    rw [List.getElem?_eq_getElem h]
    unfold Tape.get
    rw [List.getD_eq_getElem?_getD, List.getElem?_eq_getElem h]
    rfl

theorem C6_witness : TapeInv ((Tape.new : Tape Nat).set 7) :=
  (C6_tape_invariant).2.1 Tape.new 7 (C6_tape_invariant).1

/-- Claim C7: bulk construction from a finite sequence puts `s[i]` at
position `i` for every `i < len(s)` and leaves the head at 0. -/
theorem C7_bulk_construction {T : Type} [TapeDefault T] (l : List T) :
    (Tape.fromList l).pos = 0 ∧
    ∀ i, i < l.length → cellAt (Tape.fromList l) i = l.getD i TapeDefault.dflt := by
  refine ⟨fromList_ptr l, ?_⟩
  intro i _
  exact fromList_cellAt l i

theorem C7_witness :
    (Tape.fromList [3, 4, 5]).pos = 0 ∧
      cellAt (Tape.fromList [3, 4, 5]) 2 = ([3, 4, 5] : List Nat).getD 2 TapeDefault.dflt :=
  ⟨(C7_bulk_construction [3, 4, 5]).1, (C7_bulk_construction [3, 4, 5]).2 2 (by decide)⟩

/-- Claim C9: `next()` returns the element under the head and then seeks
by +1; that seek always succeeds (the target `ptr + 1` is never
negative), so the failure propagation in `next` is dead code and `next`
never fails. -/
theorem C9_next_never_fails {T : Type} [TapeDefault T] (t : Tape T) :
    ∃ t', t.seek 1 = Except.ok t' ∧ t.next = (t.get, t') ∧ t'.pos = t.pos + 1 := by
  refine ⟨_, Tape.seek_one t, ?_, rfl⟩
  unfold Tape.next
  rw [Tape.seek_one t]

/-- Claim C4: after any valid history of seeks (whose resulting positions
all stay non-negative) and sets applied to a fresh tape, `get()` returns
the most recent value `set` while the head was at the final position, or
the default value if that position was never written.  The right-hand
side is the abstract history semantics `specRun`, written from the spec:
an integer head plus the map of last writes. -/
theorem C4_read_after_write {T : Type} [TapeDefault T] (ops : List (TapeOp T))
    (h : opsValid ops 0 = true) :
    (applyOps ops Tape.new).get =
      ((specRun ops (0, fun _ => none)).2 (specRun ops (0, fun _ => none)).1).getD
        TapeDefault.dflt := by
  have habs : Abstracts (Tape.new : Tape T) (0, fun _ => none) := by
    refine ⟨by rw [Tape.new_ptr]; rfl, Tape.new_inv, ?_⟩
    intro i
    rw [Tape.new_cellAt]
    rfl
  obtain ⟨hp, hinv, hf⟩ := applyOps_abstracts ops Tape.new (0, fun _ => none) habs h
  have hget : (applyOps ops Tape.new).get
      = cellAt (applyOps ops Tape.new) (applyOps ops Tape.new).ptr := rfl
  rw [hget, hf, hp]

theorem C4_witness :
    opsValid ([TapeOp.seekOp 2, TapeOp.setOp 7, TapeOp.seekOp (-1), TapeOp.setOp 5,
                TapeOp.seekOp 1] : List (TapeOp Nat)) 0 = true ∧
    (applyOps ([TapeOp.seekOp 2, TapeOp.setOp 7, TapeOp.seekOp (-1), TapeOp.setOp 5,
                TapeOp.seekOp 1] : List (TapeOp Nat)) Tape.new).get =
      ((specRun ([TapeOp.seekOp 2, TapeOp.setOp 7, TapeOp.seekOp (-1), TapeOp.setOp 5,
                  TapeOp.seekOp 1] : List (TapeOp Nat)) (0, fun _ => none)).2
        (specRun ([TapeOp.seekOp 2, TapeOp.setOp 7, TapeOp.seekOp (-1), TapeOp.setOp 5,
                   TapeOp.seekOp 1] : List (TapeOp Nat)) (0, fun _ => none)).1).getD
        TapeDefault.dflt :=
  ⟨by decide, C4_read_after_write _ (by decide)⟩

/-- Claim C8: the loader keeps exactly the characters of the instruction
alphabet, in their original relative order (the whitespace pass removes
nothing the alphabet pass would keep, since the alphabet contains no
whitespace), bulk-constructs the symbol tape from them with the head at
0, and performs no bracket-balance validation (it is total on any
successfully read text). -/
theorem C8_loader_filters (input : List Char) :
    (load_program input).pos = 0 ∧
    filterProgram input = input.filter isBF ∧
    ∀ i, cellAt (load_program input) i = (input.filter isBF).getD i sentinel := by
  refine ⟨rfl, filterProgram_eq input, ?_⟩
  intro i
  unfold load_program
  rw [fromList_cellAt, filterProgram_eq]
  rfl

/-- Claim C1: when the dispatch loop executes `[`, the position just
after the `[` (the program head after the `next` that consumed it) is
pushed; with a non-zero cell execution falls through with the program
head unchanged and that position now on the stack; with a zero cell the
engine scans forward (pushing per nested `[`, popping per `]`, captured
by the depth-counting `specMatchClose`) until the depth returns to the
entry depth, leaving the head just past the matching `]` (`k` symbols
on) and the stack exactly as before the `[`; if the sentinel is read
first, it fails with the no-matching-`]` error. -/
theorem C1_left_bracket_dispatch (s : EngineState) (h : s.program.get = '[') :
    (s.program.next).2.pos = s.program.pos + 1 ∧
    (s.memory.get ≠ 0 →
      step s = StepResult.cont { s with program := (s.program.next).2,
                                        stack := (s.program.next).2.pos :: s.stack }) ∧
    (s.memory.get = 0 →
      (∀ k, specMatchClose ((s.program.next).2.data.drop (s.program.next).2.ptr) 1 = some k →
        ∃ p2, step s = StepResult.cont { s with program := p2, stack := s.stack } ∧
          p2.pos = (s.program.next).2.pos + k) ∧
      (specMatchClose ((s.program.next).2.data.drop (s.program.next).2.ptr) 1 = none →
        step s = StepResult.fail "Reached end of tape before finding matching ]")) := by
  have hstep := step_left_bracket s h
  refine ⟨Tape.next_snd_ptr s.program, ?_, ?_⟩
  · intro hm
    rw [hstep, left_bracket_nonzero _ _ _ hm]
  · intro hm
    have hscan := scanLoop_spec (liveCount (s.program.next).2) (s.program.next).2
      [(s.program.next).2.pos] s.stack le_rfl (by simp)
    constructor
    · intro k hk
      obtain ⟨p2, hok, hptr⟩ := hscan.2 k hk
      simp only [List.singleton_append] at hok
      refine ⟨p2, ?_, hptr⟩
      rw [hstep, left_bracket_zero _ _ _ hm, hok]
    · intro hk
      have hnone := hscan.1 hk
      simp only [List.singleton_append] at hnone
      rw [hstep, left_bracket_zero _ _ _ hm, hnone]

/-- Claim C2: when the dispatch loop executes `]`, it fails with the
unmatched-`]` error exactly when the bracket stack is empty; otherwise a
zero cell pops the top entry and continues with the program head where
`next` left it, and a non-zero cell jumps the program head back to the
position on top of the stack, leaving the stack unchanged. -/
theorem C2_right_bracket_dispatch (s : EngineState) (h : s.program.get = ']') :
    (step s = StepResult.fail "Encountered ] without matching [" ↔ s.stack = []) ∧
    (∀ top rest, s.stack = top :: rest →
      (s.memory.get = 0 →
        step s = StepResult.cont { s with program := (s.program.next).2, stack := rest }) ∧
      (s.memory.get ≠ 0 →
        ∃ p2, step s = StepResult.cont { s with program := p2, stack := s.stack } ∧
          p2.pos = top)) := by
  have hstep := step_right_bracket s h
  constructor
  · constructor
    · intro hfail
      cases hst : s.stack with
      | nil => rfl
      | cons top rest =>
        exfalso
        by_cases hm : s.memory.get = 0
        · rw [hstep, hst, right_bracket_pop _ _ _ _ hm] at hfail
          exact StepResult.noConfusion hfail
        · obtain ⟨p', hok, _⟩ := right_bracket_jump (s.program.next).2 s.memory top rest hm
          rw [hstep, hst, hok] at hfail
          exact StepResult.noConfusion hfail
    · intro hst
      rw [hstep, hst, right_bracket_empty]
  · intro top rest hst
    constructor
    · intro hm
      rw [hstep, hst, right_bracket_pop _ _ _ _ hm]
    · intro hm
      obtain ⟨p', hok, hptr⟩ := right_bracket_jump (s.program.next).2 s.memory top rest hm
      refine ⟨p', ?_, hptr⟩
      rw [hstep, hst, hok]

def bracketProgramState : EngineState := initState ("[]".toList) []

set_option maxRecDepth 1000000 in
theorem C1_witness :
    (bracketProgramState.program.next).2.pos = bracketProgramState.program.pos + 1 ∧
    (bracketProgramState.memory.get ≠ 0 →
      step bracketProgramState =
        StepResult.cont { bracketProgramState with program := (bracketProgramState.program.next).2, stack := (bracketProgramState.program.next).2.pos :: bracketProgramState.stack }) ∧
    (bracketProgramState.memory.get = 0 →
      (∀ k, specMatchClose ((bracketProgramState.program.next).2.data.drop
              (bracketProgramState.program.next).2.ptr) 1 = some k →
        ∃ p2, step bracketProgramState =
            StepResult.cont { bracketProgramState with program := p2, stack := bracketProgramState.stack } ∧
          p2.pos = (bracketProgramState.program.next).2.pos + k) ∧
      (specMatchClose ((bracketProgramState.program.next).2.data.drop
          (bracketProgramState.program.next).2.ptr) 1 = none →
        step bracketProgramState =
          StepResult.fail "Reached end of tape before finding matching ]")) :=
  C1_left_bracket_dispatch bracketProgramState (by decide)

def closeBracketState : EngineState := initState ("]".toList) []

set_option maxRecDepth 1000000 in
theorem C2_witness :
    (step closeBracketState = StepResult.fail "Encountered ] without matching [" ↔
      closeBracketState.stack = []) ∧
    (∀ top rest, closeBracketState.stack = top :: rest →
      (closeBracketState.memory.get = 0 →
        step closeBracketState =
          StepResult.cont { closeBracketState with program := (closeBracketState.program.next).2, stack := rest }) ∧
      (closeBracketState.memory.get ≠ 0 →
        ∃ p2, step closeBracketState =
            StepResult.cont { closeBracketState with program := p2, stack := closeBracketState.stack } ∧
          p2.pos = top)) :=
  C2_right_bracket_dispatch closeBracketState (by decide)

/-- Extract the two lowest memory cells of a completed run (`none` when
the run fails or the fuel runs out before the sentinel). -/
def runCells (fuel : Nat) (prog : List Char) (input : List Nat) : Option (Nat × Nat) :=
  match run fuel (initState prog input) with
  | some (Except.ok s) => some (cellAt s.memory 0, cellAt s.memory 1)
  | _ => none

set_option maxRecDepth 1000000 in
/-- Claim C3: running `++++++[->++++<]` on a fresh all-zero memory tape
terminates successfully (within 100 dispatch iterations), leaving cell 0
at 0 and cell 1 at 24. -/
theorem C3_multiplication_program :
    ∃ s, run 100 (initState ("++++++[->++++<]".toList) []) = some (Except.ok s) ∧
      cellAt s.memory 0 = 0 ∧ cellAt s.memory 1 = 24 := by
  have h : runCells 100 ("++++++[->++++<]".toList) [] = some (0, 24) := by decide
  unfold runCells at h
  rcases hrun : run 100 (initState ("++++++[->++++<]".toList) []) with _ | r
  · rw [hrun] at h
    exact Option.noConfusion h
  · rcases r with e | s
    · rw [hrun] at h
      exact Option.noConfusion h
    · rw [hrun] at h
      simp only [Option.some.injEq, Prod.mk.injEq] at h
      exact ⟨s, rfl, h.1, h.2⟩

/-- Claim C10: execution is deterministic.  The engine is a pure
function of the program tape, the memory, the bracket stack, the
available input bytes, and the output so far; two runs from states that
agree on all of these produce identical results (same termination or
failure, same final state, hence same output bytes and memory). -/
theorem C10_deterministic (fuel : Nat) (s₁ s₂ : EngineState)
    (hprog : s₁.program = s₂.program) (hmem : s₁.memory = s₂.memory)
    (hstack : s₁.stack = s₂.stack) (hin : s₁.input = s₂.input)
    (hout : s₁.output = s₂.output) :
    run fuel s₁ = run fuel s₂ := by
  have hs : s₁ = s₂ := by
    cases s₁
    cases s₂
    simp_all
  rw [hs]

theorem C10_witness :
    run 5 (initState [','] [7]) = run 5 (initState [','] [7]) :=
  C10_deterministic 5 (initState [','] [7]) (initState [','] [7]) rfl rfl rfl rfl rfl
